import Mathlib

/-!
Verification of the MyMind hierarchical to-do list application.

This file shallowly embeds the task-tree core of the application
(`src/App.tsx`, `src/components/TaskCard.tsx`, `src/types/index.ts`) in
Lean 4 and proves or refutes the specification's claims about it.

Conventions of the embedding:
  - TypeScript `Task` objects become the nested inductive `Task`; the scalar
    fields are collected in the structure `TaskData` and the recursive
    `subtasks` array is the second constructor argument.
  - JavaScript numbers that carry positions are modelled as `Rat`.
  - JavaScript strings are Lean `String`s; the JS string operations used by
    the source (`toLowerCase`, `startsWith`, `includes`, `split(" ")`,
    truthiness of a string) are given explicit executable models below.
  - `Math.random`-generated ids are modelled by passing the generated id to
    the operation as an argument; the generator itself performs no
    collision check in the source, and neither does the model.
  - The debounced auto-save (`saveLists`) is modelled as a state machine
    over an optional pending timer `(deadline, payload)` driven by a
    time-stamped list of mutation events.
-/

set_option autoImplicit false

namespace MyMind

/-- NotionColor from `src/types/index.ts`: one of nine fixed labels. -/
inductive NotionColor where
  | gray | brown | orange | yellow | green | blue | purple | pink | red
deriving DecidableEq, Repr

/-- The scalar fields of a `Task` (`src/types/index.ts`).  The recursive
`subtasks` field is split off into the `Task` inductive so that the type is
a plain nested inductive. -/
structure TaskData where
  id : String
  title : String
  color : NotionColor
  x : Rat
  y : Rat
  completed : Bool
  collapsed : Bool
  parentId : Option String
deriving DecidableEq, Repr

/-- A task tree node: the scalar fields plus the ordered `subtasks` array
(`src/types/index.ts`). -/
inductive Task where
  | node (data : TaskData) (subtasks : List Task)
deriving Repr

/-- The scalar fields of a task. -/
def Task.data : Task → TaskData
  | .node d _ => d

/-- The ordered `subtasks` array of a task. -/
def Task.subtasks : Task → List Task
  | .node _ subs => subs

/-- The `id` field of a task. -/
def Task.id (t : Task) : String := t.data.id

/-- The `title` field of a task. -/
def Task.title (t : Task) : String := t.data.title

@[simp] theorem Task.data_node (d : TaskData) (subs : List Task) :
    (Task.node d subs).data = d := rfl

@[simp] theorem Task.subtasks_node (d : TaskData) (subs : List Task) :
    (Task.node d subs).subtasks = subs := rfl

@[simp] theorem Task.id_node (d : TaskData) (subs : List Task) :
    (Task.node d subs).id = d.id := rfl

@[simp] theorem Task.title_node (d : TaskData) (subs : List Task) :
    (Task.node d subs).title = d.title := rfl

/-- A named list of tasks (`TodoList` in `src/types/index.ts`). -/
structure TodoList where
  id : String
  name : String
  tasks : List Task

/- ### JS string operations used by `findBestMatch` -/

/-- JS `String.prototype.toLowerCase`, modelled characterwise. -/
def lowerStr (s : String) : String := ⟨s.data.map Char.toLower⟩

/-- Helper for JS `String.prototype.startsWith`: `startsWithL s p` is true
iff the character list `p` is an initial segment of `s`. -/
def startsWithL : List Char → List Char → Bool
  | _, [] => true
  | [], _ :: _ => false
  | c :: cs, p :: ps => c == p && startsWithL cs ps

/-- Helper for JS `String.prototype.includes`: `hasSubstrL s p` is true iff
`p` occurs contiguously inside `s`. -/
def hasSubstrL : List Char → List Char → Bool
  | [], p => p.isEmpty
  | c :: cs, p => startsWithL (c :: cs) p || hasSubstrL cs p

/-- JS `s.startsWith(p)`. -/
def strStarts (s p : String) : Bool := startsWithL s.toList p.toList

/-- JS `s.includes(p)`. -/
def strHasSub (s p : String) : Bool := hasSubstrL s.toList p.toList

/-- Helper for JS `String.prototype.split(" ")` on character lists: splits
at every single space, keeping empty fragments, and always returns at least
one fragment (`"".split(" ")` is `[""]`). -/
def splitSpacesL : List Char → List (List Char)
  | [] => [[]]
  | c :: cs =>
    let r := splitSpacesL cs
    if c == ' ' then [] :: r
    else
      match r with
      | [] => [[c]]
      | w :: ws => (c :: w) :: ws

/-- JS `s.split(" ")`. -/
def strSplitSpaces (s : String) : List String :=
  (splitSpacesL s.toList).map fun l => ⟨l⟩

/-- JS truthiness of a `string | null` value: `null` and the empty string
are falsy. -/
def strTruthy : Option String → Bool
  | some s => !(s == "")
  | none => false

/- ### The Task Tree Manager operations (src/App.tsx) -/

/-- Core of `handleCreateTask` (App.tsx 130-150): appends a new root task.
The id produced by `generateId` is passed in as `newId`, and
`window.innerWidth` as `innerWidth`. -/
def createTask (tasks : List Task) (newId title : String) (color : NotionColor)
    (innerWidth : Rat) : List Task :=
  let newTask : Task := .node
    { id := newId, title := title, color := color,
      x := innerWidth / 2 - 160, y := (tasks.length : Rat) * 120 + 50,
      completed := false, collapsed := false, parentId := none } []
  tasks ++ [newTask]

mutual

/-- `findAndUpdateTask` (App.tsx 204-221): maps over the forest, replacing
the task with the given id by `updateFn task` and otherwise descending into
non-empty `subtasks`. -/
def findAndUpdateTask (tasks : List Task) (i : String) (updateFn : Task → Task) :
    List Task :=
  match tasks with
  | [] => []
  | t :: ts => findAndUpdateOne t i updateFn :: findAndUpdateTask ts i updateFn

/-- The body of the `tasks.map` callback inside `findAndUpdateTask`. -/
def findAndUpdateOne (t : Task) (i : String) (updateFn : Task → Task) : Task :=
  match t with
  | .node d subs =>
    if d.id == i then updateFn (.node d subs)
    else if subs.length > 0 then .node d (findAndUpdateTask subs i updateFn)
    else .node d subs

end

/-- Core of `handleToggleComplete` (App.tsx 223-231). -/
def toggleComplete (tasks : List Task) (i : String) : List Task :=
  findAndUpdateTask tasks i fun t =>
    match t with
    | .node d subs => .node { d with completed := !d.completed } subs

/-- Core of `handleAddSubtask` (App.tsx 253-273): builds the new subtask
(with the generated id passed in as `newId`) and appends it to the
`subtasks` of the task identified by `parentId`.  There is no depth check
here. -/
def addSubtask (tasks : List Task) (parentId newId title : String)
    (color : NotionColor) : List Task :=
  findAndUpdateTask tasks parentId fun t =>
    match t with
    | .node d subs =>
      .node d (subs ++ [Task.node
        { id := newId, title := title, color := color, x := 0, y := 0,
          completed := false, collapsed := false, parentId := some parentId } []])

/-- Result of `removeTaskFromTree`: the pruned forest and the detached
subtree, if any. -/
structure RemoveResult where
  tasks : List Task
  removed : Option Task

mutual

/-- `removeTaskFromTree` (App.tsx 275-302).  Phase 1 filters the current
level: every task whose id matches is dropped and the mutable `removedTask`
ends up holding the last such match.  If nothing matched at this level,
phase 2 maps over the (unchanged, since nothing was filtered out) list and
recurses into each non-empty `subtasks`. -/
def removeTaskFromTree (tasks : List Task) (taskId : String) : RemoveResult :=
  match (tasks.filter fun t => t.id == taskId).getLast? with
  | some r => ⟨tasks.filter fun t => !(t.id == taskId), some r⟩
  | none => removeFromSubtasks tasks taskId
termination_by (sizeOf tasks, 1)

/-- Phase 2 of `removeTaskFromTree`: the `filtered.map` loop, threading the
mutable `removedTask` (a later successful child removal overwrites an
earlier one, matching JS assignment order). -/
def removeFromSubtasks (tasks : List Task) (taskId : String) : RemoveResult :=
  match tasks with
  | [] => ⟨[], none⟩
  | t :: ts =>
    let (t1, r1) := removeSub t taskId
    let rest := removeFromSubtasks ts taskId
    ⟨t1 :: rest.tasks, match rest.removed with | some r => some r | none => r1⟩
termination_by (sizeOf tasks, 0)

/-- The body of the `filtered.map` callback inside `removeTaskFromTree`:
descend into `task.subtasks` when non-empty and splice the pruned subtasks
back in when the removal succeeded there. -/
def removeSub (t : Task) (taskId : String) : Task × Option Task :=
  match t with
  | .node d subs =>
    if subs.length > 0 then
      let result := removeTaskFromTree subs taskId
      match result.removed with
      | some r => (Task.node d result.tasks, some r)
      | none => (Task.node d subs, none)
    else (Task.node d subs, none)
termination_by (sizeOf t, 2)

end

/-- Core of `handleMoveTask` (App.tsx 304-333): detach the task, then either
append it to the `subtasks` of `newParentId` (JS `if (newParentId)` — note
an empty-string parent id is falsy) or append it at top level at
`newPosition`.  If the detach found nothing the original forest is
returned; there is no validation of the destination and no rollback. -/
def moveTask (tasks : List Task) (taskId : String) (newParentId : Option String)
    (newPosition : Option (Rat × Rat)) : List Task :=
  let result := removeTaskFromTree tasks taskId
  match result.removed with
  | none => tasks
  | some (.node d subs) =>
    if strTruthy newParentId then
      let pid := newParentId.getD ""
      let movedTask : Task := .node { d with parentId := some pid, x := 0, y := 0 } subs
      findAndUpdateTask result.tasks pid fun parent =>
        match parent with
        | .node pd psubs => .node pd (psubs ++ [movedTask])
    else
      match newPosition with
      | some (px, py) =>
        result.tasks ++ [Task.node { d with x := px, y := py, parentId := none } subs]
      | none => tasks

/-- Core of `handleDeleteTask` (App.tsx 335-343). -/
def deleteTask (tasks : List Task) (taskId : String) : List Task :=
  (removeTaskFromTree tasks taskId).tasks

/- ### findBestMatch (App.tsx 152-181) -/

/-- The per-task score computed inside `searchTask` (App.tsx 156-170),
against the lower-cased query and the lower-cased title. -/
def scoreTask (lowerQuery title : String) : Rat :=
  if title == lowerQuery then 100
  else if strStarts title lowerQuery then 80
  else if strHasSub title lowerQuery then 60
  else
    let queryWords := strSplitSpaces lowerQuery
    let matchedWords := (queryWords.filter fun word => strHasSub title word).length
    (matchedWords : Rat) / (queryWords.length : Rat) * 40

mutual

/-- The `searchTask` closure of `findBestMatch`: score this task, update the
running best (strict `>` only, so an equal later score never replaces the
current best), then visit the subtasks. -/
def searchTask (lowerQuery : String) (best : Option (String × Rat)) (t : Task) :
    Option (String × Rat) :=
  match t with
  | .node d subs =>
    let score := scoreTask lowerQuery (lowerStr d.title)
    let best1 :=
      if decide (0 < score) &&
          (match best with | none => true | some b => decide (b.2 < score)) then
        some (d.id, score)
      else best
    searchList lowerQuery best1 subs

/-- The `task.subtasks.forEach(searchTask)` / `tasks.forEach(searchTask)`
loop of `findBestMatch`, threading the running best. -/
def searchList (lowerQuery : String) (best : Option (String × Rat)) :
    List Task → Option (String × Rat)
  | [] => best
  | t :: ts => searchList lowerQuery (searchTask lowerQuery best t) ts

end

/-- `findBestMatch` (App.tsx 152-181).  The final `return bestMatch?.id ||
null` means an empty-string winning id (falsy in JS) also produces `null`. -/
def findBestMatch (tasks : List Task) (query : String) : Option String :=
  match searchList (lowerStr query) none tasks with
  | some (i, _) => if i == "" then none else some i
  | none => none

/- ### The view-layer guards (src/components/TaskCard.tsx) -/

/-- `maxLevel` (TaskCard.tsx 75): "Maximum nesting depth (task → subtask →
sub-subtask)". -/
def maxLevel : Nat := 3

/-- `canAddSubtask` (TaskCard.tsx 76): the card at nesting `level` (roots
render at level 0) shows the add-subtask button and accepts drops iff
`level < maxLevel`. -/
def canAddSubtask (level : Nat) : Bool := decide (level < maxLevel)

/-- The `drop` handler of `useDrop` (TaskCard.tsx 131-149): dropping the
dragged item onto the card of `targetId` (rendered at `targetLevel`) calls
`onMoveTask(item.id, task.id, null)` unless the item is the target itself
or the target is at the maximum level. -/
def dropOnTarget (tasks : List Task) (itemId targetId : String)
    (targetLevel : Nat) : List Task :=
  if itemId != targetId && canAddSubtask targetLevel then
    moveTask tasks itemId (some targetId) none
  else tasks

/- ### The debounced save scheduler (App.tsx 62-87) -/

/-- State of the debounced-save scheduler: at most one pending timer,
holding its firing deadline and the forest captured by the `saveLists`
closure. -/
structure SaveState where
  pending : Option (Rat × List TodoList)

/-- `saveLists` (App.tsx 63-80): clear any pending timeout, then set a new
one for one second from now, capturing the lists to save. -/
def saveLists (_s : SaveState) (now : Rat) (listsToSave : List TodoList) : SaveState :=
  ⟨some (now + 1, listsToSave)⟩

/-- Runs the scheduler over a time-ordered list of mutation events
`(time, forest)`: a pending timer whose deadline has been reached fires
(emitting its write) before the next mutation is processed, each mutation
replaces the pending timer via `saveLists`, and a timer still pending after
the last event eventually fires.  Returns the emitted writes in order. -/
def runSaves (s : SaveState) : List (Rat × List TodoList) → List (Rat × List TodoList)
  | [] => match s.pending with | some w => [w] | none => []
  | (t, lists) :: evs =>
    match s.pending with
    | some (d, g) =>
      if d ≤ t then (d, g) :: runSaves (saveLists ⟨none⟩ t lists) evs
      else runSaves (saveLists s t lists) evs
    | none => runSaves (saveLists ⟨none⟩ t lists) evs

/- ### Specification-side definitions -/

mutual

/-- All ids in a forest, in depth-first pre-order. -/
def allIds : List Task → List String
  | [] => []
  | t :: ts => taskIds t ++ allIds ts

/-- All ids in a single task tree, in depth-first pre-order. -/
def taskIds : Task → List String
  | .node d subs => d.id :: allIds subs

end

mutual

/-- First task (in depth-first pre-order) with the given id, returned as the
untouched subtree of the input forest. -/
def findTask : List Task → String → Option Task
  | [], _ => none
  | t :: ts, i =>
    match findTaskIn t i with
    | some r => some r
    | none => findTask ts i

/-- Search a single tree for the task with the given id. -/
def findTaskIn : Task → String → Option Task
  | .node d subs, i => if d.id == i then some (.node d subs) else findTask subs i

end

mutual

/-- Modelled from the spec's frame description of `removeTask`: delete the
subtree whose root carries the given id, keeping every other task with all
of its fields and keeping the order of the remaining roots and siblings. -/
def eraseTask : List Task → String → List Task
  | [], _ => []
  | t :: ts, i => if t.id == i then ts else eraseIn t i :: eraseTask ts i

/-- `eraseTask` inside a single tree: the root stays, the deletion happens
among its descendants. -/
def eraseIn : Task → String → Task
  | .node d subs, i => .node d (eraseTask subs i)

end

mutual

/-- Depth (root = 0) of the task with the given id, if present; first match
in depth-first pre-order. -/
def depthInForest : List Task → String → Nat → Option Nat
  | [], _, _ => none
  | t :: ts, i, d =>
    match depthInTask t i d with
    | some r => some r
    | none => depthInForest ts i d

/-- Depth search inside a single tree. -/
def depthInTask : Task → String → Nat → Option Nat
  | .node dat subs, i, d => if dat.id == i then some d else depthInForest subs i (d + 1)

end

/-- Depth of the task with the given id, roots at depth 0. -/
def depthOfId (tasks : List Task) (i : String) : Option Nat :=
  depthInForest tasks i 0

mutual

/-- Every title in the forest is non-empty. -/
def titlesNonempty : List Task → Bool
  | [] => true
  | t :: ts => titleNonempty t && titlesNonempty ts

/-- Every title in a single tree is non-empty. -/
def titleNonempty : Task → Bool
  | .node d subs => !(d.title == "") && titlesNonempty subs

end

mutual

/-- Depth-first pre-order listing of all tasks of a forest (roots in forest
order, each root's full subtree before the next root). -/
def preOrderF : List Task → List Task
  | [] => []
  | t :: ts => preOrderT t ++ preOrderF ts

/-- Depth-first pre-order listing of a single tree. -/
def preOrderT : Task → List Task
  | .node d subs => .node d subs :: preOrderF subs

end

/-- Modelled from the spec's scoring rules (§4 `findBestMatch`), on the
lower-cased query `q` and lower-cased title `t`: 100 for an exact match,
else 80 for a prefix match, else 60 for a substring match, else
`(matched query words / total query words) * 40`. -/
def specScore (q t : String) : Rat :=
  if t == q then 100
  else if strStarts t q then 80
  else if strHasSub t q then 60
  else
    let words := strSplitSpaces q
    ((words.filter fun w => strHasSub t w).length : Rat) / (words.length : Rat) * 40

/-- Modelled from the spec's tie-breaking rule: scan the scored candidates
in traversal order, replacing the current best only on a strictly greater
positive score. -/
def foldBest (best : Option (String × Rat)) :
    List (String × Rat) → Option (String × Rat)
  | [] => best
  | (i, s) :: rest =>
    foldBest
      (if decide (0 < s) &&
          (match best with | none => true | some b => decide (b.2 < s)) then
        some (i, s)
      else best) rest

/-- Modelled from the spec (§4 `findBestMatch`): score every task in
depth-first pre-order and return the id of the task with the strictly
highest positive score (first visited wins ties), or `none` when no task
scores above 0. -/
def specBest (tasks : List Task) (query : String) : Option String :=
  (foldBest none
    ((preOrderF tasks).map fun t => (t.id, specScore (lowerStr query) (lowerStr t.title)))).map
    fun p => p.1

/- ### Operation sequences for the id-uniqueness claim -/

/-- A creation operation: `createRootTask` or `addSubtask`, with the id the
generator returned for the new task. -/
inductive CreateOp where
  | root (newId title : String) (color : NotionColor)
  | sub (parentId newId title : String) (color : NotionColor)

/-- The id the generator produced for this operation. -/
def opId : CreateOp → String
  | .root i _ _ => i
  | .sub _ i _ _ => i

/-- Apply one creation operation to a forest (`w` is `window.innerWidth`). -/
def applyOp (w : Rat) (tasks : List Task) : CreateOp → List Task
  | .root i t c => createTask tasks i t c w
  | .sub p i t c => addSubtask tasks p i t c

/-- Apply a sequence of creation operations. -/
def runOps (w : Rat) (tasks : List Task) : List CreateOp → List Task
  | [] => tasks
  | op :: ops => runOps w (applyOp w tasks op) ops

/-- The id generator never returned an id already present in the forest at
the moment of its operation. -/
def freshRun (w : Rat) (tasks : List Task) : List CreateOp → Bool
  | [] => true
  | op :: ops => !((allIds tasks).contains (opId op)) && freshRun w (applyOp w tasks op) ops

end MyMind

namespace MyMind

/- ### An induction principle for task forests -/

/-- Structural induction over a forest: prove a property of all forests
from the empty case and the cons case, which may assume the property for
the head's subtasks and for the tail. -/
theorem forest_ind (P : List Task → Prop) (hnil : P [])
    (hcons : ∀ (d : TaskData) (subs ts : List Task),
      P subs → P ts → P (Task.node d subs :: ts)) :
    ∀ tasks, P tasks := by
  have key : ∀ (n : Nat) (tasks : List Task), sizeOf tasks ≤ n → P tasks := by
    intro n
    induction n with
    | zero =>
      intro tasks h
      cases tasks with
      | nil => exact hnil
      | cons t ts => simp at h
    | succ n ih =>
      intro tasks h
      cases tasks with
      | nil => exact hnil
      | cons t ts =>
        cases t with
        | node d subs =>
          have h1 : sizeOf subs ≤ n := by simp at h; omega
          have h2 : sizeOf ts ≤ n := by simp at h; omega
          exact hcons d subs ts (ih subs h1) (ih ts h2)
  intro tasks
  exact key (sizeOf tasks) tasks le_rfl

/- ### Basic lemmas about ids -/

@[simp] theorem allIds_nil : allIds [] = [] := rfl

@[simp] theorem allIds_cons (t : Task) (ts : List Task) :
    allIds (t :: ts) = taskIds t ++ allIds ts := by
  simp [allIds]

@[simp] theorem taskIds_node (d : TaskData) (subs : List Task) :
    taskIds (Task.node d subs) = d.id :: allIds subs := by
  simp [taskIds]

theorem allIds_append (l1 l2 : List Task) :
    allIds (l1 ++ l2) = allIds l1 ++ allIds l2 := by
  induction l1 with
  | nil => simp
  | cons t ts ih => simp [ih]

theorem id_mem_allIds {t : Task} {tasks : List Task} (h : t ∈ tasks) :
    t.id ∈ allIds tasks := by
  induction tasks with
  | nil => simp at h
  | cons a ts ih =>
    rcases List.mem_cons.mp h with rfl | hmem
    · cases t with
      | node d subs => simp
    · cases a with
      | node d subs => simp [ih hmem]

end MyMind

namespace MyMind

/- ### findAndUpdateTask lemmas -/

theorem findAndUpdateTask_length (tasks : List Task) (i : String) (f : Task → Task) :
    (findAndUpdateTask tasks i f).length = tasks.length := by
  induction tasks with
  | nil => simp [findAndUpdateTask]
  | cons t ts ih => simp [findAndUpdateTask, ih]

/-- C10: the toggle-complete update (`handleToggleComplete`, App.tsx
223-231) is an involution: applying it twice with the same id returns the
original forest, whether or not a task with that id exists. -/
theorem toggleComplete_toggleComplete (tasks : List Task) (i : String) :
    toggleComplete (toggleComplete tasks i) i = tasks := by
  induction tasks using forest_ind with
  | hnil => rfl
  | hcons d subs ts ihsubs ihts =>
    simp only [toggleComplete, findAndUpdateTask] at ihsubs ihts ⊢
    refine congrArg₂ List.cons ?_ ihts
    by_cases h : d.id = i
    · subst h
      simp [findAndUpdateOne, Bool.not_not]
    · by_cases h2 : subs.length > 0
      · simp [findAndUpdateOne, beq_iff_eq, h, h2, findAndUpdateTask_length, ihsubs]
      · simp [findAndUpdateOne, beq_iff_eq, h, h2]

end MyMind

namespace MyMind

/- ### removeTaskFromTree against the specification-side erase and find -/

/-- Decomposition of id-uniqueness at a cons node. -/
theorem nodup_cons_parts {d : TaskData} {subs ts : List Task}
    (hu : (allIds (Task.node d subs :: ts)).Nodup) :
    (allIds subs).Nodup ∧ (allIds ts).Nodup ∧ d.id ∉ allIds subs ∧ d.id ∉ allIds ts ∧
      ∀ a, a ∈ allIds subs → a ∉ allIds ts := by
  have h := hu
  simp only [allIds_cons, taskIds_node, List.cons_append] at h
  rw [List.nodup_cons] at h
  obtain ⟨h1, h2⟩ := h
  rw [List.nodup_append] at h2
  obtain ⟨h3, h4, h5⟩ := h2
  simp only [List.mem_append] at h1
  push_neg at h1
  exact ⟨h3, h4, h1.1, h1.2, fun a ha hat => h5 ha hat⟩

/-- When the id is absent, the spec-side erase keeps the forest and the
spec-side find returns nothing. -/
theorem eraseFind_absent (i : String) :
    ∀ tasks : List Task, i ∉ allIds tasks →
      eraseTask tasks i = tasks ∧ findTask tasks i = none := by
  refine forest_ind _ ?_ ?_
  · exact fun _ => ⟨rfl, rfl⟩
  · intro d subs ts ihsubs ihts hni
    have h3 : ¬(i = d.id) ∧ i ∉ allIds subs ∧ i ∉ allIds ts := by simpa using hni
    have hd : d.id ≠ i := fun h => h3.1 h.symm
    obtain ⟨hes, hfs⟩ := ihsubs h3.2.1
    obtain ⟨het, hft⟩ := ihts h3.2.2
    constructor
    · simp [eraseTask, eraseIn, beq_iff_eq, hd, hes, het]
    · simp [findTask, findTaskIn, beq_iff_eq, hd, hfs, hft]

/-- When the id is present, the spec-side find returns a subtree. -/
theorem findTask_isSome (i : String) :
    ∀ tasks : List Task, i ∈ allIds tasks → (findTask tasks i).isSome := by
  refine forest_ind _ ?_ ?_
  · intro h; simp at h
  · intro d subs ts ihsubs ihts hmem
    have hmem2 : i = d.id ∨ i ∈ allIds subs ∨ i ∈ allIds ts := by simpa using hmem
    cases hd2 : (d.id == i) with
    | true => simp [findTask, findTaskIn, hd2]
    | false =>
      have hd : ¬ i = d.id := fun h =>
        by simp [beq_iff_eq, h.symm] at hd2
      rcases hmem2 with h | h | h
      · exact absurd h hd
      · have := ihsubs h
        rcases Option.isSome_iff_exists.mp this with ⟨r, hr⟩
        simp [findTask, findTaskIn, hd2, hr]
      · cases hfs : findTask subs i with
        | some r => simp [findTask, findTaskIn, hd2, hfs]
        | none => simp [findTask, findTaskIn, hd2, hfs, ihts h]

/-- If exactly one task at the top level of the forest carries the id (as
id-uniqueness guarantees), the phase-1 filters of `removeTaskFromTree`
isolate it and agree with the spec-side erase and find. -/
theorem level_match (i : String) (tasks : List Task) :
    (allIds tasks).Nodup → ∀ t0 ∈ tasks, t0.id = i →
      tasks.filter (fun t => t.id == i) = [t0] ∧
      tasks.filter (fun t => !(t.id == i)) = eraseTask tasks i ∧
      findTask tasks i = some t0 := by
  induction tasks with
  | nil => intro _ t0 h; simp at h
  | cons a ts ih =>
    intro hu t0 hmem hid
    cases a with
    | node d subs =>
      obtain ⟨hns, hnt, hds, hdt, hdisj⟩ := nodup_cons_parts hu
      rcases List.mem_cons.mp hmem with rfl | hmem2
      · have hdi : d.id = i := by simpa using hid
        subst hdi
        have hts : ∀ t ∈ ts, t.id ≠ d.id := fun t ht hh =>
          hdt (hh ▸ id_mem_allIds ht)
        refine ⟨?_, ?_, ?_⟩
        · have hnil : ts.filter (fun t => t.id == d.id) = [] :=
            List.filter_eq_nil_iff.mpr fun t ht => by simp [beq_iff_eq, hts t ht]
          simp [List.filter_cons, hnil]
        · have : ∀ t ∈ ts, (!(t.id == d.id)) = true := fun t ht => by
            simp [beq_iff_eq, hts t ht]
          simp [List.filter_cons, eraseTask, List.filter_eq_self.mpr this]
        · simp [findTask, findTaskIn]
      · have hit : i ∈ allIds ts := hid ▸ id_mem_allIds hmem2
        have hd : d.id ≠ i := fun h => hdt (h ▸ hit)
        have hs : i ∉ allIds subs := fun h => hdisj i h hit
        obtain ⟨f1, f2, f3⟩ := ih hnt t0 hmem2 hid
        have hes : eraseTask subs i = subs := (eraseFind_absent i subs hs).1
        have hfs : findTask subs i = none := (eraseFind_absent i subs hs).2
        refine ⟨?_, ?_, ?_⟩
        · simp [List.filter_cons, beq_iff_eq, hd, f1]
        · simp [List.filter_cons, beq_iff_eq, hd, f2, eraseTask, eraseIn, hes]
        · simp [findTask, findTaskIn, beq_iff_eq, hd, hfs, f3]

end MyMind

namespace MyMind

/-- Main correctness of the source's two-phase removal against the
spec-side erase and find, assuming id-uniqueness.  The second component
handles the phase-2 helper under the premise that phase 1 found no match
at the current level (which is how the source reaches it). -/
theorem remove_spec (i : String) :
    ∀ tasks : List Task,
      ((allIds tasks).Nodup →
        removeTaskFromTree tasks i = ⟨eraseTask tasks i, findTask tasks i⟩) ∧
      ((allIds tasks).Nodup → (∀ t ∈ tasks, t.id ≠ i) →
        removeFromSubtasks tasks i = ⟨eraseTask tasks i, findTask tasks i⟩) := by
  refine forest_ind _ ?_ ?_
  · constructor
    · intro _
      simp [removeTaskFromTree, removeFromSubtasks, eraseTask, findTask]
    · intro _ _
      simp [removeFromSubtasks, eraseTask, findTask]
  · intro d subs ts ihsubs ihts
    have c2 : (allIds (Task.node d subs :: ts)).Nodup →
        (∀ t ∈ (Task.node d subs :: ts), t.id ≠ i) →
        removeFromSubtasks (Task.node d subs :: ts) i =
          ⟨eraseTask (Task.node d subs :: ts) i, findTask (Task.node d subs :: ts) i⟩ := by
      intro hu hnm
      obtain ⟨hns, hnt, _, _, hdisj⟩ := nodup_cons_parts hu
      have hd : d.id ≠ i := by
        simpa using hnm (Task.node d subs) (List.mem_cons_self _ _)
      have hts := ihts.2 hnt fun t ht => hnm t (List.mem_cons_of_mem _ ht)
      by_cases hsub : subs = []
      · subst hsub
        cases hft : findTask ts i with
        | some r =>
          simp [removeFromSubtasks, removeSub, hts, hft, eraseTask, eraseIn,
            findTask, findTaskIn, beq_iff_eq, hd]
        | none =>
          simp [removeFromSubtasks, removeSub, hts, hft, eraseTask, eraseIn,
            findTask, findTaskIn, beq_iff_eq, hd]
      · have hlen : subs.length > 0 := List.length_pos.mpr hsub
        have hsubs_spec := ihsubs.1 hns
        cases hfs : findTask subs i with
        | some r =>
          have hits : i ∈ allIds subs := by
            by_contra hni
            have h0 := (eraseFind_absent i subs hni).2
            rw [hfs] at h0
            exact Option.noConfusion h0
          have hnits : i ∉ allIds ts := fun h => hdisj i hits h
          have hft : findTask ts i = none := (eraseFind_absent i ts hnits).2
          simp [removeFromSubtasks, removeSub, hlen, hsubs_spec, hfs, hts, hft,
            eraseTask, eraseIn, findTask, findTaskIn, beq_iff_eq, hd]
        | none =>
          have hnis : i ∉ allIds subs := fun hmm => by
            have h0 := findTask_isSome i subs hmm
            rw [hfs] at h0
            simp at h0
          have hes : eraseTask subs i = subs := (eraseFind_absent i subs hnis).1
          cases hft : findTask ts i with
          | some r =>
            simp [removeFromSubtasks, removeSub, hlen, hsubs_spec, hfs, hts, hft,
              eraseTask, eraseIn, findTask, findTaskIn, beq_iff_eq, hd, hes]
          | none =>
            simp [removeFromSubtasks, removeSub, hlen, hsubs_spec, hfs, hts, hft,
              eraseTask, eraseIn, findTask, findTaskIn, beq_iff_eq, hd, hes]
    have c1 : (allIds (Task.node d subs :: ts)).Nodup →
        removeTaskFromTree (Task.node d subs :: ts) i =
          ⟨eraseTask (Task.node d subs :: ts) i, findTask (Task.node d subs :: ts) i⟩ := by
      intro hu
      by_cases hex : ∃ t0 ∈ (Task.node d subs :: ts), t0.id = i
      · obtain ⟨t0, hmem, hid⟩ := hex
        obtain ⟨f1, f2, f3⟩ := level_match i _ hu t0 hmem hid
        simp only [removeTaskFromTree]
        rw [f1]
        simp [f2, f3]
      · push_neg at hex
        have hfil : (Task.node d subs :: ts).filter (fun t => t.id == i) = [] :=
          List.filter_eq_nil_iff.mpr fun t ht => by simp [beq_iff_eq, hex t ht]
        simp only [removeTaskFromTree]
        rw [hfil]
        exact c2 hu hex
    exact ⟨c1, c2⟩

/-- Packaged form of `remove_spec`: under id-uniqueness the code's removal
is exactly spec-side erase plus spec-side find. -/
theorem removeTaskFromTree_eq (tasks : List Task) (i : String)
    (hu : (allIds tasks).Nodup) :
    removeTaskFromTree tasks i = ⟨eraseTask tasks i, findTask tasks i⟩ :=
  (remove_spec i tasks).1 hu

end MyMind

namespace MyMind

/-- Helper to build a `TaskData` record for concrete inputs. -/
def mkData (i ttl : String) (c : NotionColor) (px py : Rat) (comp coll : Bool)
    (pid : Option String) : TaskData :=
  { id := i, title := ttl, color := c, x := px, y := py,
    completed := comp, collapsed := coll, parentId := pid }

/-- A two-root demo forest with a nested subtask, used as concrete input. -/
def demoForest : List Task :=
  [Task.node (mkData "a" "Task A" .gray 0 0 false false none)
    [Task.node (mkData "b" "Task B" .gray 0 0 false false (some "a")) []],
   Task.node (mkData "c" "Task C" .gray 12 34 true false none) []]

/-- C9: the removal frame property.  For every forest with unique ids and
every id present in it, `removeTaskFromTree` returns exactly the spec-side
erase of that id — every task outside the removed subtree is kept with all
its fields and the order of the remaining roots and siblings — together
with the matching subtree of the original forest, unmodified. -/
theorem removeTask_frame (tasks : List Task) (i : String)
    (hu : (allIds tasks).Nodup) (hp : i ∈ allIds tasks) :
    ∃ r, findTask tasks i = some r ∧
      removeTaskFromTree tasks i = ⟨eraseTask tasks i, some r⟩ := by
  rcases Option.isSome_iff_exists.mp (findTask_isSome i tasks hp) with ⟨r, hr⟩
  exact ⟨r, hr, by rw [removeTaskFromTree_eq tasks i hu, hr]⟩

/-- Witness for C9 at a concrete forest and id. -/
theorem removeTask_frame_witness :
    (allIds demoForest).Nodup ∧ "b" ∈ allIds demoForest ∧
      ∃ r, findTask demoForest "b" = some r ∧
        removeTaskFromTree demoForest "b" = ⟨eraseTask demoForest "b", some r⟩ :=
  ⟨by decide, by decide, removeTask_frame demoForest "b" (by decide) (by decide)⟩

/-- A single root task used as concrete input for the move claims. -/
def taskX : Task := Task.node (mkData "x" "Task X" .gray 0 0 false false none) []

/-- A root task with one subtask, used for the cyclic-move claim. -/
def taskXY : Task :=
  Task.node (mkData "x" "Task X" .gray 0 0 false false none)
    [Task.node (mkData "y" "Task Y" .gray 0 0 false false (some "x")) []]

/-- C1: the code violates move atomicity.  Reparenting the only task onto a
parent id that does not exist in the forest does not return the original
forest: the detach is applied and never rolled back, so the task is simply
deleted (`handleMoveTask` runs `findAndUpdateTask` on the pruned forest,
which is a no-op when the destination is missing). -/
theorem moveTask_missing_parent_deletes :
    moveTask [taskX] "x" (some "missing") none = [] ∧ [taskX] ≠ [] := by
  constructor
  · simp [moveTask, removeTaskFromTree, removeFromSubtasks, removeSub, taskX,
      mkData, findAndUpdateTask, strTruthy]
  · simp

/-- C3 counterexample: `moveTask` itself has no self-move guard; with
`taskId == newParentId` the detach still happens and the re-attach inside
the pruned forest finds nothing, so the task is deleted instead of the
forest being left unchanged. -/
theorem moveTask_self_not_unchanged :
    moveTask [taskX] "x" (some "x") none = [] ∧
      moveTask [taskX] "x" (some "x") none ≠ [taskX] := by
  have h : moveTask [taskX] "x" (some "x") none = [] := by
    simp [moveTask, removeTaskFromTree, removeFromSubtasks, removeSub, taskX,
      mkData, findAndUpdateTask, strTruthy]
  exact ⟨h, by rw [h]; simp⟩

/-- C3 (amended): the self-move rejection lives in the drag-and-drop layer,
not in `moveTask`: the `useDrop` handler (TaskCard.tsx 131-149) checks
`item.id !== task.id` before calling `onMoveTask`, so a self-drop leaves
the forest unchanged for every forest and every nesting level. -/
theorem dropOnTarget_self (tasks : List Task) (i : String) (level : Nat) :
    dropOnTarget tasks i i level = tasks := by
  simp [dropOnTarget]

/-- C4: the code has no cyclic-move guard.  With `taskXY` the task `y` is a
proper descendant of `x` (depth 1), yet reparenting `x` onto `y` does not
leave the forest unchanged: the detach removes `x` together with `y`, the
re-attach finds no `y` in the pruned forest, and the whole subtree is
silently deleted. -/
theorem moveTask_onto_descendant_deletes :
    depthOfId [taskXY] "y" = some 1 ∧ moveTask [taskXY] "x" (some "y") none = [] := by
  constructor
  · decide
  · simp [moveTask, removeTaskFromTree, removeFromSubtasks, removeSub, taskXY,
      mkData, findAndUpdateTask, strTruthy]

/-- Scenario C of the spec, executed by the code: root `a`, subtask `b`,
sub-subtask `c`, then `addSubtask(c, "Task D")`. -/
def scenarioC : List Task :=
  addSubtask (addSubtask (addSubtask (createTask [] "a" "Task A" .gray 1024)
    "a" "b" "Task B" .gray) "b" "c" "Task C" .gray) "c" "d" "Task D" .gray

/-- C2: the depth bound is not enforced.  The view guard `canAddSubtask`
(TaskCard.tsx 75-76) still allows a card at level 2 to add subtasks
(`2 < maxLevel = 3`), and `handleAddSubtask` has no depth check at all, so
Scenario C's `addSubtask(C, "D")` succeeds and produces a task at depth 3
instead of being rejected with the forest unchanged. -/
theorem addSubtask_depth_three :
    canAddSubtask 2 = true ∧ depthOfId scenarioC "c" = some 2 ∧
      depthOfId scenarioC "d" = some 3 := by
  exact ⟨rfl, by decide, by decide⟩

end MyMind

namespace MyMind

/- ### findBestMatch against the specification's scoring -/

theorem foldBest_append (b : Option (String × Rat)) (l1 l2 : List (String × Rat)) :
    foldBest b (l1 ++ l2) = foldBest (foldBest b l1) l2 := by
  induction l1 generalizing b with
  | nil => rfl
  | cons p rest ih =>
    cases p
    simp [foldBest, ih]

/-- The code's per-task score is exactly the spec's scoring formula. -/
theorem scoreTask_eq_specScore (q t : String) : scoreTask q t = specScore q t := rfl

/-- The code's traversal with its running best is the spec-side fold over
the depth-first pre-order listing. -/
theorem search_eq_foldBest (q : String) :
    ∀ tasks : List Task, ∀ best,
      searchList q best tasks =
        foldBest best ((preOrderF tasks).map fun t => (t.id, scoreTask q (lowerStr t.title))) := by
  refine forest_ind (fun tasks => ∀ best,
    searchList q best tasks =
      foldBest best ((preOrderF tasks).map fun t => (t.id, scoreTask q (lowerStr t.title)))) ?_ ?_
  · intro best
    rfl
  · intro d subs ts ihsubs ihts best
    simp only [searchList, searchTask, preOrderF, preOrderT, List.map_cons,
      List.map_append, List.cons_append, foldBest_append, foldBest,
      Task.id_node, Task.title_node, ihsubs, ihts]
    rw [show (preOrderF subs).append (preOrderF ts) = preOrderF subs ++ preOrderF ts from rfl,
      List.map_append, foldBest_append]

/-- Scenario B's first task. -/
def taskB1 : Task := Task.node (mkData "t1" "buy groceries" .gray 0 0 false false none) []

/-- Scenario B's second task. -/
def taskB2 : Task :=
  Task.node (mkData "t2" "remember to buy milk at store" .gray 0 0 false false none) []

/-- C5 (amended): `findBestMatch` scores every task exactly as the spec
says (100 exact, 80 prefix, 60 substring, word-ratio times 40), and returns
the id of the task with the strictly highest positive score, ties broken by
first visit in depth-first pre-order — except that when that winning id is
the empty string the JS `|| null` coalescing makes it return `none`
instead.  Scenario B holds as claimed: the substring match (score 60) beats
the word-ratio match (score 20). -/
theorem findBestMatch_spec :
    (∀ (tasks : List Task) (query : String), specBest tasks query ≠ some "" →
      findBestMatch tasks query = specBest tasks query) ∧
    findBestMatch [taskB1, taskB2] "buy milk" = some "t2" := by
  constructor
  · intro tasks query hne
    have hspec : specBest tasks query =
        (foldBest none ((preOrderF tasks).map fun t =>
          (t.id, specScore (lowerStr query) (lowerStr t.title)))).map fun p => p.1 := rfl
    rw [hspec] at hne ⊢
    show (match searchList (lowerStr query) none tasks with
      | some (i, _) => if i == "" then none else some i
      | none => none) = _
    rw [search_eq_foldBest (lowerStr query) tasks none]
    simp only [scoreTask_eq_specScore]
    cases hfb : foldBest none ((preOrderF tasks).map fun t =>
        (t.id, specScore (lowerStr query) (lowerStr t.title))) with
    | none => rfl
    | some p =>
      obtain ⟨i, s⟩ := p
      rw [hfb] at hne
      have hi : ¬(i = "") := fun h => hne (by simp [h])
      simp [hi]
  · have e1 : (lowerStr "buy groceries" == lowerStr "buy milk") = false := by decide
    have e2 : strStarts (lowerStr "buy groceries") (lowerStr "buy milk") = false := by decide
    have e3 : strHasSub (lowerStr "buy groceries") (lowerStr "buy milk") = false := by decide
    have e4 : strSplitSpaces (lowerStr "buy milk") = ["buy", "milk"] := by decide
    have e5 : (["buy", "milk"].filter fun w => strHasSub (lowerStr "buy groceries") w)
        = ["buy"] := by decide
    have hs1 : scoreTask (lowerStr "buy milk") (lowerStr "buy groceries") = 20 := by
      simp [scoreTask, e1, e2, e3, e4, e5]
      norm_num
    have e6 : (lowerStr "remember to buy milk at store" == lowerStr "buy milk") = false := by
      decide
    have e7 : strStarts (lowerStr "remember to buy milk at store") (lowerStr "buy milk")
        = false := by decide
    have e8 : strHasSub (lowerStr "remember to buy milk at store") (lowerStr "buy milk")
        = true := by decide
    have hs2 : scoreTask (lowerStr "buy milk") (lowerStr "remember to buy milk at store")
        = 60 := by
      simp [scoreTask, e6, e7, e8]
    have d1 : (decide ((0:ℚ) < 20)) = true := by rfl
    have d2 : (decide ((20:ℚ) < 60)) = true := by rfl
    simp [findBestMatch, searchList, searchTask, taskB1, taskB2, mkData, hs1, hs2, d1, d2]

/-- A task whose id is the empty string, with an exactly matching title. -/
def emptyIdTask : Task := Task.node (mkData "" "milk" .gray 0 0 false false none) []

/-- C5 counterexample: on this forest the unique (hence strictly highest)
positive score is the exact match of the empty-id task, so the claim says
its id is returned — but `findBestMatch` returns `none`, because the
winning id `""` is falsy in the source's `bestMatch?.id || null`. -/
theorem findBestMatch_empty_id :
    specBest [emptyIdTask] "milk" = some "" ∧ findBestMatch [emptyIdTask] "milk" = none := by
  constructor
  · decide
  · decide

/-- Witness for C5 at a concrete forest and query. -/
theorem findBestMatch_spec_witness :
    findBestMatch [taskB2] "buy" = specBest [taskB2] "buy" :=
  findBestMatch_spec.1 [taskB2] "buy" (by decide)

end MyMind

namespace MyMind

/- ### The empty-query behaviour of findBestMatch -/

/-- Lower-casing preserves non-emptiness. -/
theorem lowerStr_ne_empty {s : String} (h : s ≠ "") : (lowerStr s == "") = false := by
  rw [beq_eq_false_iff_ne]
  intro hh
  apply h
  cases s with
  | mk l =>
    have h1 : l.map Char.toLower = [] := congrArg String.data hh
    have h2 : l = [] := by
      cases l with
      | nil => rfl
      | cons c cs => simp at h1
    simp [h2]

/-- Against the empty query, every non-empty title scores exactly 80 (it is
not an exact match but does start with `""`). -/
theorem scoreTask_empty_query {t : String} (h : (t == "") = false) :
    scoreTask "" t = 80 := by
  have hs : strStarts t "" = true := by
    cases t with
    | mk l => cases l <;> rfl
  simp [scoreTask, h, hs]

/-- With the empty query and non-empty titles, a best of score 80 survives
the whole traversal: every later task also scores 80 and the strict `>`
comparison never replaces the current best. -/
theorem searchList_empty_query_all80 :
    ∀ tasks : List Task, titlesNonempty tasks = true →
      ∀ j : String, searchList "" (some (j, (80 : ℚ))) tasks = some (j, 80) := by
  refine forest_ind (fun tasks => titlesNonempty tasks = true →
    ∀ j : String, searchList "" (some (j, (80 : ℚ))) tasks = some (j, 80)) ?_ ?_
  · intro _ j
    rfl
  · intro d subs ts ihsubs ihts hne j
    have hparts : (¬d.title = "" ∧ titlesNonempty subs = true) ∧
        titlesNonempty ts = true := by
      simpa [titlesNonempty, titleNonempty, Bool.and_eq_true, Bool.not_eq_true'] using hne
    have hscore : scoreTask "" (lowerStr d.title) = 80 :=
      scoreTask_empty_query (lowerStr_ne_empty hparts.1.1)
    have d80 : (decide ((80:ℚ) < 80)) = false := by rfl
    simp only [searchList, searchTask, hscore, d80, Bool.and_false, Bool.false_eq_true,
      if_false, ihsubs hparts.1.2 j, ihts hparts.2 j]

/-- C8 (amended): on a non-empty forest whose titles are all non-empty, the
empty query scores every task 80, so `findBestMatch` returns the id of the
first task in depth-first pre-order — provided that id is itself non-empty
(an empty winning id is falsy in the source's `|| null` and produces `none`
instead). -/
theorem findBestMatch_empty_query (d : TaskData) (subs ts : List Task)
    (htitles : titlesNonempty (Task.node d subs :: ts) = true) (hid : d.id ≠ "") :
    findBestMatch (Task.node d subs :: ts) "" = some d.id := by
  have hparts : (¬d.title = "" ∧ titlesNonempty subs = true) ∧
      titlesNonempty ts = true := by
    simpa [titlesNonempty, titleNonempty, Bool.and_eq_true, Bool.not_eq_true'] using htitles
  have hscore : scoreTask "" (lowerStr d.title) = 80 :=
    scoreTask_empty_query (lowerStr_ne_empty hparts.1.1)
  have hq : lowerStr "" = "" := rfl
  have d80 : (decide ((0:ℚ) < 80)) = true := by rfl
  have hbeq : (d.id == "") = false := beq_eq_false_iff_ne.mpr hid
  simp only [findBestMatch, hq, searchList, searchTask, hscore, d80, Bool.true_and,
    Task.id_node, Task.title_node, if_true,
    searchList_empty_query_all80 subs hparts.1.2, searchList_empty_query_all80 ts hparts.2,
    hbeq, Bool.false_eq_true, if_false]

/-- Witness for C8 at a concrete forest. -/
theorem findBestMatch_empty_query_witness :
    titlesNonempty [taskB1, taskB2] = true ∧ ("t1" : String) ≠ "" ∧
      findBestMatch [taskB1, taskB2] "" = some "t1" := by
  refine ⟨by decide, by decide, ?_⟩
  exact findBestMatch_empty_query (mkData "t1" "buy groceries" .gray 0 0 false false none)
    [] [taskB2] (by decide) (by decide)

/-- A task with a non-empty title but an empty id. -/
def emptyIdTaskA : Task := Task.node (mkData "" "alpha" .gray 0 0 false false none) []

/-- C8 counterexample: a non-empty forest with no empty titles on which the
empty query nevertheless yields `none`, because the first (and only)
pre-order task has the empty id and the source's `|| null` treats it as
falsy. -/
theorem findBestMatch_empty_query_none :
    titlesNonempty [emptyIdTaskA] = true ∧ findBestMatch [emptyIdTaskA] "" = none := by
  constructor
  · decide
  · decide

end MyMind

namespace MyMind

/- ### The debounced save scheduler -/

/-- With a pending timer strictly later than every event time, each event
cancels and restarts the timer, so exactly one write is emitted: the last
event's forest, one second after it. -/
theorem runSaves_pending :
    ∀ (evs : List (Rat × List TodoList)) (d : Rat) (gs : List TodoList),
      (∀ e ∈ evs, e.1 < d) →
      evs.Pairwise (fun a b => b.1 < a.1 + 1) →
      runSaves ⟨some (d, gs)⟩ evs =
        [(match evs.getLast? with
          | none => (d, gs)
          | some (t, f) => (t + 1, f))] := by
  intro evs
  induction evs with
  | nil =>
    intro d gs _ _
    rfl
  | cons e rest ih =>
    obtain ⟨t, f⟩ := e
    intro d gs hd hp
    have ht : t < d := hd (t, f) (List.mem_cons_self _ _)
    have hnle : ¬ d ≤ t := not_le.mpr ht
    have hrest : ∀ e ∈ rest, e.1 < t + 1 := (List.pairwise_cons.mp hp).1
    have hprest : rest.Pairwise (fun a b => b.1 < a.1 + 1) := (List.pairwise_cons.mp hp).2
    simp only [runSaves, saveLists, hnle, if_false]
    rw [ih (t + 1) f hrest hprest]
    cases rest with
    | nil => rfl
    | cons r rs =>
      rw [List.getLast?_cons_cons]
      cases hlast : (r :: rs).getLast? with
      | none => simp at hlast
      | some p =>
        obtain ⟨a, b⟩ := p
        rfl

/-- C7: debounced-save coalescing.  For any non-empty, time-ordered
sequence of mutations all occurring within one second of the first, the
scheduler (every mutation clears the pending timeout and sets a new
one-second one) emits exactly one write, and that write carries the entire
forest as of the last mutation, firing one second after it. -/
theorem debounced_save_coalesces (t0 : Rat) (f0 : List TodoList)
    (rest : List (Rat × List TodoList))
    (hsort : List.Chain' (fun a b => a.1 ≤ b.1) ((t0, f0) :: rest))
    (hwin : ∀ e ∈ rest, e.1 < t0 + 1) :
    runSaves ⟨none⟩ ((t0, f0) :: rest) =
      [((((t0, f0) :: rest).getLastD (t0, f0)).1 + 1,
        (((t0, f0) :: rest).getLastD (t0, f0)).2)] := by
  have hge : ∀ e ∈ rest, t0 ≤ e.1 := by
    have key : ∀ (l : List (Rat × List TodoList)) (a : Rat × List TodoList),
        List.Chain' (fun x y => x.1 ≤ y.1) (a :: l) → ∀ e ∈ l, a.1 ≤ e.1 := by
      intro l
      induction l with
      | nil =>
        intro a _ e he
        simp at he
      | cons b bs ih =>
        intro a hch e he
        have hab : a.1 ≤ b.1 := (List.chain'_cons.mp hch).1
        rcases List.mem_cons.mp he with rfl | he2
        · exact hab
        · exact le_trans hab (ih b (List.chain'_cons.mp hch).2 e he2)
    exact key rest (t0, f0) hsort
  have hp : rest.Pairwise (fun a b => b.1 < a.1 + 1) :=
    List.pairwise_of_forall_mem_list fun a ha b hb =>
      lt_of_lt_of_le (hwin b hb) (by have := hge a ha; linarith)
  have step : runSaves ⟨none⟩ ((t0, f0) :: rest) = runSaves ⟨some (t0 + 1, f0)⟩ rest := by
    simp [runSaves, saveLists]
  rw [step, runSaves_pending rest (t0 + 1) f0 hwin hp]
  cases rest with
  | nil => rfl
  | cons r rs =>
    rw [List.getLastD_cons]
    cases hlast : (r :: rs).getLast? with
    | none => simp at hlast
    | some p =>
      obtain ⟨t, f⟩ := p
      have : (r :: rs).getLastD r = (t, f) := by
        rw [List.getLastD_eq_getLast?, hlast]
        rfl
      rw [show (r :: rs).getLastD (t0, f0) = (t, f) by
        rw [List.getLastD_eq_getLast?, hlast]; rfl]

/-- Demo payload for the scheduler witness. -/
def demoLists : List TodoList := [⟨"l1", "Main", [taskX]⟩]

/-- Witness for C7: two mutations at the same instant produce exactly one
write, holding the second mutation's forest. -/
theorem debounced_save_coalesces_witness :
    runSaves ⟨none⟩ [((0 : Rat), ([] : List TodoList)), (0, demoLists)]
      = [((0 : Rat) + 1, demoLists)] := by
  have h := debounced_save_coalesces 0 [] [(0, demoLists)]
    (by simp) (by intro e he; simp at he; simp [he])
  simpa using h

end MyMind

namespace MyMind

/- ### Id uniqueness under create and addSubtask -/

/-- `findAndUpdateTask` is the identity when the target id is absent. -/
theorem findAndUpdateTask_absent (i : String) (f : Task → Task) :
    ∀ tasks : List Task, i ∉ allIds tasks → findAndUpdateTask tasks i f = tasks := by
  refine forest_ind (fun tasks => i ∉ allIds tasks → findAndUpdateTask tasks i f = tasks) ?_ ?_
  · intro _
    rfl
  · intro d subs ts ihsubs ihts hni
    have h3 : ¬(i = d.id) ∧ i ∉ allIds subs ∧ i ∉ allIds ts := by simpa using hni
    have hd : (d.id == i) = false := beq_eq_false_iff_ne.mpr fun h => h3.1 h.symm
    by_cases hlen : subs.length > 0
    · simp [findAndUpdateTask, findAndUpdateOne, hd, hlen, ihsubs h3.2.1, ihts h3.2.2]
    · simp [findAndUpdateTask, findAndUpdateOne, hd, hlen, ihts h3.2.2]

/-- Creating a root appends exactly the new id. -/
theorem allIds_createTask (tasks : List Task) (i ttl : String) (c : NotionColor) (w : Rat) :
    allIds (createTask tasks i ttl c w) = allIds tasks ++ [i] := by
  simp [createTask, allIds_append]

/-- Adding a subtask under an existing parent inserts exactly the new id
(as a permutation of consing it), assuming unique ids. -/
theorem allIds_addSubtask_perm (pid cid ttl : String) (c : NotionColor) :
    ∀ tasks : List Task, (allIds tasks).Nodup → pid ∈ allIds tasks →
      List.Perm (allIds (addSubtask tasks pid cid ttl c)) (cid :: allIds tasks) := by
  refine forest_ind (fun tasks => (allIds tasks).Nodup → pid ∈ allIds tasks →
    List.Perm (allIds (addSubtask tasks pid cid ttl c)) (cid :: allIds tasks)) ?_ ?_
  · intro _ h
    simp at h
  · intro d subs ts ihsubs ihts hu hmem
    obtain ⟨hns, hnt, hds, hdt, hdisj⟩ := nodup_cons_parts hu
    by_cases hd : d.id = pid
    · have hnsubs : pid ∉ allIds subs := hd ▸ hds
      have hnts : pid ∉ allIds ts := hd ▸ hdt
      have hbeq : (d.id == pid) = true := beq_iff_eq.mpr hd
      have htail : findAndUpdateTask ts pid (fun t =>
          match t with
          | .node d subs =>
            .node d (subs ++ [Task.node
              { id := cid, title := ttl, color := c, x := 0, y := 0,
                completed := false, collapsed := false, parentId := some pid } []])) = ts :=
        findAndUpdateTask_absent pid _ ts hnts
      simp only [addSubtask, findAndUpdateTask, findAndUpdateOne, hbeq, if_true, htail,
        allIds_cons, taskIds_node, allIds_append]
      simp only [allIds_cons, taskIds_node, allIds_nil, List.append_nil, List.append_assoc,
        List.cons_append, List.nil_append]
      refine List.Perm.trans (List.Perm.cons d.id ?_) (List.Perm.swap cid d.id _)
      exact List.perm_middle.trans (List.Perm.refl _)
    · have hbeq : (d.id == pid) = false := beq_eq_false_iff_ne.mpr hd
      by_cases hmem_subs : pid ∈ allIds subs
      · have hsub_ne : subs ≠ [] := by
          intro h
          rw [h] at hmem_subs
          simp at hmem_subs
        have hlen : subs.length > 0 := List.length_pos.mpr hsub_ne
        have hnts : pid ∉ allIds ts := fun h => hdisj pid hmem_subs h
        have htail : findAndUpdateTask ts pid (fun t =>
            match t with
            | .node d subs =>
              .node d (subs ++ [Task.node
                { id := cid, title := ttl, color := c, x := 0, y := 0,
                  completed := false, collapsed := false, parentId := some pid } []])) = ts :=
          findAndUpdateTask_absent pid _ ts hnts
        have hsub := ihsubs hns hmem_subs
        simp only [addSubtask] at hsub
        simp only [addSubtask, findAndUpdateTask, findAndUpdateOne, hbeq, Bool.false_eq_true,
          if_false, hlen, if_true, htail, allIds_cons, taskIds_node]
        have step1 : List.Perm
            (d.id :: (allIds (findAndUpdateTask subs pid _) ++ allIds ts))
            (d.id :: ((cid :: allIds subs) ++ allIds ts)) :=
          List.Perm.cons d.id (List.Perm.append_right (allIds ts) hsub)
        refine step1.trans ?_
        simp only [List.cons_append]
        exact List.Perm.swap cid d.id _
      · have hmem_ts : pid ∈ allIds ts := by
          have : pid = d.id ∨ pid ∈ allIds subs ∨ pid ∈ allIds ts := by simpa using hmem
          rcases this with h | h | h
          · exact absurd h.symm hd
          · exact absurd h hmem_subs
          · exact h
        have hhead : findAndUpdateOne (Task.node d subs) pid (fun t =>
            match t with
            | .node d subs =>
              .node d (subs ++ [Task.node
                { id := cid, title := ttl, color := c, x := 0, y := 0,
                  completed := false, collapsed := false, parentId := some pid } []]))
            = Task.node d subs := by
          by_cases hlen : subs.length > 0
          · simp [findAndUpdateOne, hbeq, hlen, findAndUpdateTask_absent pid _ subs hmem_subs]
          · simp [findAndUpdateOne, hbeq, hlen]
        have hts := ihts hnt hmem_ts
        simp only [addSubtask] at hts
        simp only [addSubtask, findAndUpdateTask, hhead, allIds_cons, taskIds_node]
        have step1 : List.Perm
            (d.id :: (allIds subs ++ allIds (findAndUpdateTask ts pid _)))
            (d.id :: (allIds subs ++ (cid :: allIds ts))) :=
          List.Perm.cons d.id (List.Perm.append_left (allIds subs) hts)
        refine step1.trans ?_
        refine List.Perm.cons d.id ?_ |>.trans (List.Perm.swap cid d.id _)
        exact List.perm_middle

end MyMind

namespace MyMind

/-- Under freshness of every generated id, any sequence of root creations
and subtask additions preserves id-uniqueness. -/
theorem nodup_runOps (w : Rat) :
    ∀ (ops : List CreateOp) (tasks : List Task), (allIds tasks).Nodup →
      freshRun w tasks ops = true → (allIds (runOps w tasks ops)).Nodup := by
  intro ops
  induction ops with
  | nil =>
    intro tasks hu _
    simpa [runOps] using hu
  | cons op rest ih =>
    intro tasks hu hf
    have hf2 : (!(allIds tasks).contains (opId op)) = true ∧
        freshRun w (applyOp w tasks op) rest = true := by
      simpa [freshRun, Bool.and_eq_true] using hf
    have hni : opId op ∉ allIds tasks := by simpa using hf2.1
    simp only [runOps]
    refine ih (applyOp w tasks op) ?_ hf2.2
    cases op with
    | root i ttl c =>
      have hi : i ∉ allIds tasks := hni
      simp only [applyOp, allIds_createTask]
      rw [List.nodup_append]
      refine ⟨hu, List.nodup_singleton i, ?_⟩
      intro a ha hai
      rw [List.mem_singleton] at hai
      exact hi (hai ▸ ha)
    | sub p i ttl c =>
      have hi : i ∉ allIds tasks := hni
      simp only [applyOp]
      by_cases hp : p ∈ allIds tasks
      · have hperm := allIds_addSubtask_perm p i ttl c tasks hu hp
        have hcons : (i :: allIds tasks).Nodup := List.nodup_cons.mpr ⟨hi, hu⟩
        exact hperm.symm.nodup hcons
      · have habs : addSubtask tasks p i ttl c = tasks := by
          simp only [addSubtask]
          exact findAndUpdateTask_absent p _ tasks hp
        rw [habs]
        exact hu

/-- C6 (amended): id uniqueness is conditional on the generator.  The
operations themselves never duplicate an id: for every sequence of
createRootTask and addSubtask operations starting from the empty forest,
if each generated id is fresh (not equal to any id present at that
moment), the resulting forest has pairwise-distinct ids.  The code performs
no collision check, so this freshness assumption is exactly what
`Math.random` is trusted to provide. -/
theorem uniqueIds_of_freshRun (w : Rat) (ops : List CreateOp)
    (h : freshRun w [] ops = true) : (allIds (runOps w [] ops)).Nodup :=
  nodup_runOps w ops [] (by simp) h

/-- A fresh two-operation demo sequence. -/
def demoOps : List CreateOp :=
  [CreateOp.root "a" "Task A" .gray, CreateOp.sub "a" "b" "Task B" .gray]

/-- Witness for C6 at a concrete operation sequence. -/
theorem uniqueIds_of_freshRun_witness :
    freshRun 0 [] demoOps = true ∧ (allIds (runOps 0 [] demoOps)).Nodup :=
  ⟨by decide, uniqueIds_of_freshRun 0 demoOps (by decide)⟩

/-- C6 counterexample: the claim as stated fails because nothing in the
code makes the generated id fresh — `generateId` is unchecked
`Math.random`.  If the generator returns "a" twice, two root creations
yield two tasks with the same id. -/
theorem duplicate_ids_on_collision :
    allIds (runOps 0 []
      [CreateOp.root "a" "Task A" .gray, CreateOp.root "a" "Task B" .gray]) = ["a", "a"] ∧
    ¬ (allIds (runOps 0 []
      [CreateOp.root "a" "Task A" .gray, CreateOp.root "a" "Task B" .gray])).Nodup := by
  exact ⟨by decide, by decide⟩

end MyMind
